import Mathlib

/-!
Verification of the secure_log encrypted-logging pipeline (src/lib.rs, src/error.rs).

Modelling conventions:
* Rust byte strings are `List Nat` with entries below 256; Rust text (`String`, `&str`)
  is `List Char` (Unicode scalar values, as in Rust).
* The SHA-256 key derivation (sha2 crate) and the standard base64 codec (base64 crate,
  `general_purpose::STANDARD`: padded, canonical) are implemented concretely below.
* The AES-256-GCM cipher (aes_gcm crate) is an external primitive; it is modelled by a
  `Cipher` parameter together with the `CipherOk` contract of the library: decryption
  inverts encryption under the same key and nonce, the ciphertext carries a 16-byte tag,
  and a ciphertext shorter than the tag is rejected.  Authentication failures on
  foreign or tampered input hold only with overwhelming probability for the real
  cipher, so theorems take the corresponding rejection facts as explicit hypotheses.
* Files are their contents: a file is the `List Char` of its text, a directory is a
  partial map from paths to contents.  The background worker is modelled by the
  function it computes on the finite stream of queue messages it dequeues.
-/

/-! ## SHA-256 (sha2 crate), used by SecureLogger::derive_key -/

/-- Reduce modulo 2^32. -/
def w32 (n : Nat) : Nat := n % 4294967296

/-- Right rotation of a 32-bit word. -/
def rotr (n x : Nat) : Nat := w32 ((x >>> n) ||| (x <<< (32 - n)))

def bigSigma0 (x : Nat) : Nat := w32 (rotr 2 x ^^^ rotr 13 x ^^^ rotr 22 x)

def bigSigma1 (x : Nat) : Nat := w32 (rotr 6 x ^^^ rotr 11 x ^^^ rotr 25 x)

def smallSigma0 (x : Nat) : Nat := w32 (rotr 7 x ^^^ rotr 18 x ^^^ (x >>> 3))

def smallSigma1 (x : Nat) : Nat := w32 (rotr 17 x ^^^ rotr 19 x ^^^ (x >>> 10))

def chFn (x y z : Nat) : Nat := (x &&& y) ^^^ ((4294967295 - w32 x) &&& z)

def majFn (x y z : Nat) : Nat := (x &&& y) ^^^ (x &&& z) ^^^ (y &&& z)

/-- Round constants of SHA-256. -/
def K256 : List Nat :=
  [1116352408, 1899447441, 3049323471, 3921009573, 961987163, 1508970993,
   2453635748, 2870763221, 3624381080, 310598401, 607225278, 1426881987,
   1925078388, 2162078206, 2614888103, 3248222580, 3835390401, 4022224774,
   264347078, 604807628, 770255983, 1249150122, 1555081692, 1996064986,
   2554220882, 2821834349, 2952996808, 3210313671, 3336571891, 3584528711,
   113926993, 338241895, 666307205, 773529912, 1294757372, 1396182291,
   1695183700, 1986661051, 2177026350, 2456956037, 2730485921, 2820302411,
   3259730800, 3345764771, 3516065817, 3600352804, 4094571909, 275423344,
   430227734, 506948616, 659060556, 883997877, 958139571, 1322822218,
   1537002063, 1747873779, 1955562222, 2024104815, 2227730452, 2361852424,
   2428436474, 2756734187, 3204031479, 3329325298]

/-- Working state of the SHA-256 compression function: eight 32-bit words. -/
structure H8 where
  a : Nat
  b : Nat
  c : Nat
  d : Nat
  e : Nat
  f : Nat
  g : Nat
  h : Nat
deriving DecidableEq

/-- Initial hash value of SHA-256. -/
def initH : H8 :=
  ⟨1779033703, 3144134277, 1013904242, 2773480762, 1359893119, 2600822924, 528734635, 1541459225⟩

/-- Big-endian 8-byte encoding of the message bit length. -/
def be64 (n : Nat) : List Nat :=
  [n / 72057594037927936 % 256, n / 281474976710656 % 256, n / 1099511627776 % 256,
   n / 4294967296 % 256, n / 16777216 % 256, n / 65536 % 256, n / 256 % 256, n % 256]

/-- SHA-256 padding: append 0x80, zero bytes up to 56 mod 64, then the 64-bit bit length. -/
def padMsg (bs : List Nat) : List Nat :=
  bs ++ 0x80 :: List.replicate ((64 - (bs.length + 9) % 64) % 64) 0 ++ be64 (8 * bs.length)

/-- Accumulating splitter: `cur` holds the bytes of the current block in reverse,
`curLen` its length. -/
def toBlocksAux (cur : List Nat) (curLen : Nat) : List Nat → List (List Nat)
  | [] => if cur = [] then [] else [cur.reverse]
  | b :: rest =>
    if curLen = 63 then (b :: cur).reverse :: toBlocksAux [] 0 rest
    else toBlocksAux (b :: cur) (curLen + 1) rest

/-- Split a byte list into 64-byte blocks. -/
def toBlocks (l : List Nat) : List (List Nat) := toBlocksAux [] 0 l

/-- Combine bytes into big-endian 32-bit words. -/
def beWords : List Nat → List Nat
  | b0 :: b1 :: b2 :: b3 :: rest => (((b0 * 256 + b1) * 256 + b2) * 256 + b3) :: beWords rest
  | _ => []

/-- One extension step of the SHA-256 message schedule. -/
def schedStep (ws : List Nat) : List Nat :=
  let n := ws.length
  ws ++ [w32 (smallSigma1 (ws.getD (n - 2) 0) + ws.getD (n - 7) 0 +
              smallSigma0 (ws.getD (n - 15) 0) + ws.getD (n - 16) 0)]

/-- Extend the 16 words of a block to the full 64-word schedule. -/
def schedule (ws : List Nat) : List Nat :=
  (List.range 48).foldl (fun acc _ => schedStep acc) ws

/-- One SHA-256 compression round. -/
def roundStep (st : H8) (kw : Nat × Nat) : H8 :=
  let t1 := w32 (st.h + bigSigma1 st.e + chFn st.e st.f st.g + kw.1 + kw.2)
  let t2 := w32 (bigSigma0 st.a + majFn st.a st.b st.c)
  ⟨w32 (t1 + t2), st.a, st.b, st.c, w32 (st.d + t1), st.e, st.f, st.g⟩

/-- Compress one 64-byte block into the running state. -/
def compressBlock (st : H8) (block : List Nat) : H8 :=
  let ws := schedule (beWords block)
  let fin := (K256.zip ws).foldl roundStep st
  ⟨w32 (st.a + fin.a), w32 (st.b + fin.b), w32 (st.c + fin.c), w32 (st.d + fin.d),
   w32 (st.e + fin.e), w32 (st.f + fin.f), w32 (st.g + fin.g), w32 (st.h + fin.h)⟩

/-- Big-endian 4-byte encoding of a 32-bit word. -/
def wordBE (x : Nat) : List Nat := [x / 16777216 % 256, x / 65536 % 256, x / 256 % 256, x % 256]

/-- Serialize the final state into the 32-byte digest. -/
def digestBytes (st : H8) : List Nat :=
  wordBE st.a ++ wordBE st.b ++ wordBE st.c ++ wordBE st.d ++
  wordBE st.e ++ wordBE st.f ++ wordBE st.g ++ wordBE st.h

/-- SHA-256 of a byte string. -/
def sha256 (bs : List Nat) : List Nat :=
  digestBytes ((toBlocks (padMsg bs)).foldl compressBlock initH)

/-! ## UTF-8 (Rust str::as_bytes and String::from_utf8_lossy) -/

/-- UTF-8 encoding of one Unicode scalar value. -/
def utf8Char (c : Char) : List Nat :=
  let u := c.toNat
  if u < 128 then [u]
  else if u < 2048 then [192 + u / 64, 128 + u % 64]
  else if u < 65536 then [224 + u / 4096, 128 + u / 64 % 64, 128 + u % 64]
  else [240 + u / 262144, 128 + u / 4096 % 64, 128 + u / 64 % 64, 128 + u % 64]

/-- UTF-8 encoding of a text, as produced by str::as_bytes on a Rust string. -/
def utf8 (s : List Char) : List Nat := s.foldr (fun c acc => utf8Char c ++ acc) []

/-- The replacement character U+FFFD. -/
def replChar : Char := Char.ofNat 65533

/-- Decode a two-byte sequence, or U+FFFD if ill-formed. -/
def decode2 (b0 b1 : Nat) : Char :=
  if 128 ≤ b1 ∧ b1 < 192 then Char.ofNat ((b0 - 192) * 64 + (b1 - 128)) else replChar

/-- Decode a three-byte sequence, or U+FFFD if ill-formed (overlong or surrogate). -/
def decode3 (b0 b1 b2 : Nat) : Char :=
  if (128 ≤ b1 ∧ b1 < 192) ∧ (128 ≤ b2 ∧ b2 < 192) ∧
     2048 ≤ (b0 - 224) * 4096 + (b1 - 128) * 64 + (b2 - 128) ∧
     ((b0 - 224) * 4096 + (b1 - 128) * 64 + (b2 - 128) < 55296 ∨
      57343 < (b0 - 224) * 4096 + (b1 - 128) * 64 + (b2 - 128)) then
    Char.ofNat ((b0 - 224) * 4096 + (b1 - 128) * 64 + (b2 - 128))
  else replChar

/-- Decode a four-byte sequence, or U+FFFD if ill-formed (overlong or out of range). -/
def decode4 (b0 b1 b2 b3 : Nat) : Char :=
  if (128 ≤ b1 ∧ b1 < 192) ∧ (128 ≤ b2 ∧ b2 < 192) ∧ (128 ≤ b3 ∧ b3 < 192) ∧
     65536 ≤ (b0 - 240) * 262144 + (b1 - 128) * 4096 + (b2 - 128) * 64 + (b3 - 128) ∧
     (b0 - 240) * 262144 + (b1 - 128) * 4096 + (b2 - 128) * 64 + (b3 - 128) < 1114112 then
    Char.ofNat ((b0 - 240) * 262144 + (b1 - 128) * 4096 + (b2 - 128) * 64 + (b3 - 128))
  else replChar

/-- UTF-8 decoding worker; the fuel argument (at least the length of the byte
list) only drives the recursion. -/
def utf8DecodeAux : Nat → List Nat → List Char
  | 0, _ => []
  | _ + 1, [] => []
  | fuel + 1, b0 :: rest =>
    if b0 < 128 then Char.ofNat b0 :: utf8DecodeAux fuel rest
    else if b0 < 194 then replChar :: utf8DecodeAux fuel rest
    else if b0 < 224 then
      if rest.length < 1 then [replChar]
      else decode2 b0 (rest.getD 0 0) :: utf8DecodeAux fuel (rest.drop 1)
    else if b0 < 240 then
      if rest.length < 2 then [replChar]
      else decode3 b0 (rest.getD 0 0) (rest.getD 1 0) :: utf8DecodeAux fuel (rest.drop 2)
    else
      if rest.length < 3 then [replChar]
      else decode4 b0 (rest.getD 0 0) (rest.getD 1 0) (rest.getD 2 0) ::
        utf8DecodeAux fuel (rest.drop 3)

/-- UTF-8 decoding with replacement of ill-formed sequences, as in
String::from_utf8_lossy.  On well-formed input (the only case the decrypt path
ever produces for data written by the worker) it inverts `utf8`.  Ill-formed
sequences are replaced by U+FFFD; the exact number of replacement characters
Rust emits for a given ill-formed sequence is not material to any claim, and
this model consumes the examined bytes for one replacement. -/
def utf8Decode (bs : List Nat) : List Char := utf8DecodeAux bs.length bs

/-! ## Base64, standard alphabet with padding (base64 crate, STANDARD engine) -/

/-- The standard base64 alphabet. -/
def b64Alphabet : List Char :=
  ['A', 'B', 'C', 'D', 'E', 'F', 'G', 'H', 'I', 'J', 'K', 'L', 'M',
   'N', 'O', 'P', 'Q', 'R', 'S', 'T', 'U', 'V', 'W', 'X', 'Y', 'Z',
   'a', 'b', 'c', 'd', 'e', 'f', 'g', 'h', 'i', 'j', 'k', 'l', 'm',
   'n', 'o', 'p', 'q', 'r', 's', 't', 'u', 'v', 'w', 'x', 'y', 'z',
   '0', '1', '2', '3', '4', '5', '6', '7', '8', '9', '+', '/']

/-- Character for a 6-bit group. -/
def encChar (v : Nat) : Char := b64Alphabet.getD v '?'

/-- Position of a character in a list, or none. -/
def findPos : List Char → Char → Nat → Option Nat
  | [], _, _ => none
  | a :: rest, c, i => if a = c then some i else findPos rest c (i + 1)

/-- Value of an alphabet character. -/
def decChar (c : Char) : Option Nat := findPos b64Alphabet c 0

/-- Base64 encoding: three bytes become four characters; a final group of one or
two bytes is padded with `=`. -/
def b64encode : List Nat → List Char
  | [] => []
  | [b0] => [encChar (b0 / 4), encChar (b0 % 4 * 16), '=', '=']
  | [b0, b1] => [encChar (b0 / 4), encChar (b0 % 4 * 16 + b1 / 16), encChar (b1 % 16 * 4), '=']
  | b0 :: b1 :: b2 :: rest =>
    encChar (b0 / 4) :: encChar (b0 % 4 * 16 + b1 / 16) ::
      encChar (b1 % 16 * 4 + b2 / 64) :: encChar (b2 % 64) :: b64encode rest

/-- Base64 decoding, strict as in the STANDARD engine: the length must be a
multiple of four, padding must be canonical and final, and the unused low bits
of a padded group must be zero. -/
def b64decode : List Char → Option (List Nat)
  | [] => some []
  | c0 :: c1 :: c2 :: c3 :: rest =>
    match decChar c0, decChar c1 with
    | some v0, some v1 =>
      if c2 = '=' then
        if c3 = '=' ∧ rest = [] ∧ v1 % 16 = 0 then some [v0 * 4 + v1 / 16] else none
      else
        match decChar c2 with
        | some v2 =>
          if c3 = '=' then
            if rest = [] ∧ v2 % 4 = 0 then some [v0 * 4 + v1 / 16, v1 % 16 * 16 + v2 / 4]
            else none
          else
            match decChar c3 with
            | some v3 =>
              match b64decode rest with
              | some bs =>
                some ((v0 * 4 + v1 / 16) :: (v1 % 16 * 16 + v2 / 4) :: (v2 % 4 * 64 + v3) :: bs)
              | none => none
            | none => none
        | none => none
    | _, _ => none
  | _ => none

/-! ## Reading a file as lines (std::io::BufRead::lines) -/

/-- Split text at every newline; `acc` holds the current line in reverse. -/
def linesAux (acc : List Char) : List Char → List (List Char)
  | [] => if acc = [] then [] else [acc.reverse]
  | c :: rest => if c = '\n' then acc.reverse :: linesAux [] rest else linesAux (c :: acc) rest

/-- Remove one trailing carriage return, as BufRead::lines does for CRLF endings. -/
def chopCR (l : List Char) : List Char :=
  if l.getLast? = some '\r' then l.dropLast else l

/-- The lines of a text, as iterated by BufRead::lines: terminators are not
included, a trailing newline does not produce an extra empty line, and an
empty file yields no lines. -/
def rustLines (s : List Char) : List (List Char) := (linesAux [] s).map chopCR

/-! ## Error taxonomy (src/error.rs) -/

/-- Errors of secure logging operations.  The payload of the Io variant is
irrelevant to control flow and is omitted. -/
inductive Error where
  | Io : Error
  | InvalidKey : Error
  | InvalidData : Error
  | DecryptionFailed : Error
  | MissingKey : Error
deriving DecidableEq

-- Decidable equality on results, used to evaluate concrete instances.
deriving instance DecidableEq for Except

/-! ## The AEAD cipher (aes_gcm crate, Aes256Gcm) -/

/-- An AEAD cipher: encryption and decryption keyed by key bytes and a nonce.
Decryption is total as a function but returns none when authentication fails. -/
structure Cipher where
  enc : List Nat → List Nat → List Nat → List Nat
  dec : List Nat → List Nat → List Nat → Option (List Nat)

/-- Functional contract of Aes256Gcm: decryption inverts encryption under the
same key and nonce; the ciphertext is the plaintext plus a 16-byte tag; bytes
are bytes; a ciphertext too short to contain the tag never authenticates. -/
structure CipherOk (C : Cipher) : Prop where
  roundtrip : ∀ kb n m, C.dec kb n (C.enc kb n m) = some m
  tagLen : ∀ kb n m, (C.enc kb n m).length = m.length + 16
  encBytes : ∀ kb n m, (∀ b ∈ m, b < 256) → ∀ b ∈ C.enc kb n m, b < 256
  shortRejects : ∀ kb n c, c.length < 16 → C.dec kb n c = none

/-! ## SecureLogger (src/lib.rs) -/

/-- Key derivation (SecureLogger::derive_key, lib.rs lines 205-210): a single
SHA-256 pass over the UTF-8 bytes of the passphrase. -/
def derive_key (key : List Char) : List Nat := sha256 (utf8 key)

/-- Cipher construction from key bytes (Aes256Gcm::new_from_slice, used at
lib.rs lines 81-82 and 169-170): fails unless the key is exactly 32 bytes. -/
def new_from_slice (kb : List Nat) : Except Error (List Nat) :=
  if kb.length = 32 then Except.ok kb else Except.error Error.InvalidKey

/-- The line the worker writes for one log entry (lib.rs lines 100-117):
base64 of the random nonce followed by the ciphertext of the UTF-8 message. -/
def encryptEntry (C : Cipher) (kb nonce : List Nat) (text : List Char) : List Char :=
  b64encode (nonce ++ C.enc kb nonce (utf8 text))

/-- Environment of one worker iteration for an Entry message: the nonce drawn
from OsRng, whether cipher.encrypt returned Ok, and whether the ignored
writeln succeeded. -/
structure MsgEnv where
  nonce : List Nat
  encOk : Bool
  wrOk : Bool
deriving DecidableEq

/-- A queue message (LogMessage, lib.rs lines 43-49), with the per-iteration
environment attached to entries. -/
inductive QMsg where
  | entry : List Char → MsgEnv → QMsg
  | shutdown : QMsg
deriving DecidableEq

/-- The worker loop (lib.rs lines 97-125) as the list of lines it appends to
the file: an Entry is encrypted and written when both steps succeed and is
silently dropped otherwise; Shutdown breaks the loop; the loop also ends when
the stream of received messages ends. -/
def workerLoop (C : Cipher) (kb : List Nat) : List QMsg → List (List Char)
  | [] => []
  | QMsg.entry text env :: rest =>
    if env.encOk then
      if env.wrOk then encryptEntry C kb env.nonce text :: workerLoop C kb rest
      else workerLoop C kb rest
    else workerLoop C kb rest
  | QMsg.shutdown :: _ => []

/-- Whether a queue message is an Entry. -/
def isEntryQ : QMsg → Bool
  | QMsg.entry _ _ => true
  | QMsg.shutdown => false

/-- The line successfully produced for a queue message, if any. -/
def entrySuccess (C : Cipher) (kb : List Nat) : QMsg → Option (List Char)
  | QMsg.entry text env =>
    if env.encOk && env.wrOk then some (encryptEntry C kb env.nonce text) else none
  | QMsg.shutdown => none

/-- File contents written by the worker: each line followed by a newline
(writeln, lib.rs line 117). -/
def fileContent (lines : List (List Char)) : List Char :=
  lines.foldr (fun l acc => l ++ '\n' :: acc) []

/-- Wire decoding of one line (lib.rs lines 182-189): base64-decode or fail
with InvalidData, reject decoded data shorter than 12 bytes with InvalidData,
split at byte 12 into nonce and ciphertext. -/
def decodeLine (l : List Char) : Except Error (List Nat × List Nat) :=
  match b64decode l with
  | none => Except.error Error.InvalidData
  | some data =>
    if data.length < 12 then Except.error Error.InvalidData
    else Except.ok (data.take 12, data.drop 12)

/-- Decryption of one line (lib.rs lines 182-195): decode, then authenticated
decryption, mapping an authentication failure to DecryptionFailed. -/
def decryptLine (C : Cipher) (kb : List Nat) (l : List Char) : Except Error (List Nat) :=
  match decodeLine l with
  | Except.error e => Except.error e
  | Except.ok (nonce, ct) =>
    match C.dec kb nonce ct with
    | none => Except.error Error.DecryptionFailed
    | some pt => Except.ok pt

/-- The line loop of SecureLogger::decrypt (lib.rs lines 178-200): process each
line, appending the lossily decoded plaintext plus a newline to the
accumulator, returning on the first error. -/
def decryptLoop (C : Cipher) (kb : List Nat) : List (List Char) → List Char →
    Except Error (List Char)
  | [], acc => Except.ok acc
  | l :: ls, acc =>
    match decryptLine C kb l with
    | Except.error e => Except.error e
    | Except.ok pt => decryptLoop C kb ls (acc ++ utf8Decode pt ++ ['\n'])

/-- SecureLogger::decrypt (lib.rs lines 161-203) on a file with the given
contents: derive the key, build the cipher (InvalidKey on a wrong-size key),
then run the line loop over the lines of the file. -/
def decrypt (C : Cipher) (key content : List Char) : Except Error (List Char) :=
  match new_from_slice (derive_key key) with
  | Except.error e => Except.error e
  | Except.ok kb => decryptLoop C kb (rustLines content) []

/-- Filesystem effect of opening the log in SecureLogger::encrypt (lib.rs
lines 88-92): OpenOptions with create(true), write(true), truncate(true)
leaves the file at `path` empty and every other file unchanged. -/
def encryptOpenFs (fs : List Char → Option (List Char)) (path : List Char) :
    List Char → Option (List Char) :=
  fun p => if p = path then some [] else fs p

/-- Construction SecureLogger::encrypt (lib.rs lines 76-140), up to its
filesystem effect: derive the key, build the cipher (InvalidKey on a
wrong-size key), truncate-open the log file.  Returns the key bytes the worker
will use and the new filesystem. -/
def encryptCtor (key : List Char) (fs : List Char → Option (List Char)) (path : List Char) :
    Except Error (List Nat × (List Char → Option (List Char))) :=
  match new_from_slice (derive_key key) with
  | Except.error e => Except.error e
  | Except.ok kb => Except.ok (kb, encryptOpenFs fs path)

/-- Shared state visible to the logger handles: how many handles are live and
the queued messages. -/
structure HandleState where
  handles : Nat
  queue : List QMsg
deriving DecidableEq

/-- Clone for SecureLogger (lib.rs lines 214-221): clones the sender and the
shared worker reference; one more live handle, queue untouched. -/
def cloneLogger (s : HandleState) : HandleState :=
  ⟨s.handles + 1, s.queue⟩

/-- Drop for SecureLogger (lib.rs lines 248-253): releasing a handle sends the
Shutdown sentinel to the queue, whatever the number of remaining handles. -/
def dropLogger (s : HandleState) : HandleState :=
  ⟨s.handles - 1, s.queue ++ [QMsg.shutdown]⟩

/-- Flip bit `j` of byte `i` of a byte string. -/
def flipBit (bs : List Nat) (i j : Nat) : List Nat :=
  bs.set i ((bs.getD i 0) ^^^ 2 ^ j)

/-! ## A concrete cipher instance used to evaluate the theorems -/

/-- Tag of the toy cipher: 16 bytes depending on key, nonce and message. -/
def toyTag (kb n m : List Nat) : List Nat :=
  List.replicate 15 0 ++
    [(kb.foldl (· + ·) 0 + 2 * n.foldl (· + ·) 0 + 3 * m.foldl (· + ·) 0 + 5 * m.length) % 256]

/-- A toy cipher satisfying the `CipherOk` contract: the ciphertext is the
plaintext followed by `toyTag`, and decryption checks the tag. -/
def toyCipher : Cipher where
  enc kb n m := m ++ toyTag kb n m
  dec kb n c :=
    if 16 ≤ c.length then
      if c.drop (c.length - 16) = toyTag kb n (c.take (c.length - 16)) then
        some (c.take (c.length - 16))
      else none
    else none

/-! ## Helper lemmas: SHA-256 digest size -/

theorem sha256_length (bs : List Nat) : (sha256 bs).length = 32 := by
  simp [sha256, digestBytes, wordBE]

theorem derive_key_length (key : List Char) : (derive_key key).length = 32 :=
  sha256_length _

theorem new_from_slice_derive (key : List Char) :
    new_from_slice (derive_key key) = Except.ok (derive_key key) := by
  simp [new_from_slice, derive_key_length]

/-! ## Helper lemmas: base64 -/

theorem decChar_encChar {v : Nat} (h : v < 64) : decChar (encChar v) = some v := by
  have hall : ∀ w : Fin 64, decChar (encChar w.val) = some w.val := by decide
  exact hall ⟨v, h⟩

theorem encChar_ne (v : Nat) : encChar v ≠ '\n' ∧ encChar v ≠ '\r' ∧ encChar v ≠ '=' := by
  by_cases h : v < 64
  · have hall : ∀ w : Fin 64,
        encChar w.val ≠ '\n' ∧ encChar w.val ≠ '\r' ∧ encChar w.val ≠ '=' := by decide
    exact hall ⟨v, h⟩
  · have hq : encChar v = '?' := by
      simp only [encChar]
      apply List.getD_eq_default
      simp only [b64Alphabet, List.length]
      omega
    rw [hq]
    refine ⟨by decide, by decide, by decide⟩

theorem b64encode_ne_nl {bs : List Nat} {c : Char} (h : c ∈ b64encode bs) :
    c ≠ '\n' ∧ c ≠ '\r' := by
  induction bs using b64encode.induct with
  | case1 => simp [b64encode] at h
  | case2 b0 =>
    simp only [b64encode, List.mem_cons, List.not_mem_nil, or_false] at h
    rcases h with rfl | rfl | rfl | rfl
    · exact ⟨(encChar_ne _).1, (encChar_ne _).2.1⟩
    · exact ⟨(encChar_ne _).1, (encChar_ne _).2.1⟩
    · exact ⟨by decide, by decide⟩
    · exact ⟨by decide, by decide⟩
  | case3 b0 b1 =>
    simp only [b64encode, List.mem_cons, List.not_mem_nil, or_false] at h
    rcases h with rfl | rfl | rfl | rfl
    · exact ⟨(encChar_ne _).1, (encChar_ne _).2.1⟩
    · exact ⟨(encChar_ne _).1, (encChar_ne _).2.1⟩
    · exact ⟨(encChar_ne _).1, (encChar_ne _).2.1⟩
    · exact ⟨by decide, by decide⟩
  | case4 b0 b1 b2 rest ih =>
    simp only [b64encode, List.mem_cons] at h
    rcases h with rfl | rfl | rfl | rfl | h
    · exact ⟨(encChar_ne _).1, (encChar_ne _).2.1⟩
    · exact ⟨(encChar_ne _).1, (encChar_ne _).2.1⟩
    · exact ⟨(encChar_ne _).1, (encChar_ne _).2.1⟩
    · exact ⟨(encChar_ne _).1, (encChar_ne _).2.1⟩
    · exact ih h

theorem b64decode_pad2 {c0 c1 : Char} {v0 v1 : Nat} (h0 : decChar c0 = some v0)
    (h1 : decChar c1 = some v1) (hv : v1 % 16 = 0) :
    b64decode [c0, c1, '=', '='] = some [v0 * 4 + v1 / 16] := by
  simp [b64decode, h0, h1, hv]

theorem b64decode_pad1 {c0 c1 c2 : Char} {v0 v1 v2 : Nat} (h0 : decChar c0 = some v0)
    (h1 : decChar c1 = some v1) (h2 : decChar c2 = some v2) (hne : c2 ≠ '=')
    (hv : v2 % 4 = 0) :
    b64decode [c0, c1, c2, '='] = some [v0 * 4 + v1 / 16, v1 % 16 * 16 + v2 / 4] := by
  simp [b64decode, h0, h1, h2, hne, hv]

theorem b64decode_quad {c0 c1 c2 c3 : Char} {rest : List Char} {v0 v1 v2 v3 : Nat}
    (h0 : decChar c0 = some v0) (h1 : decChar c1 = some v1) (h2 : decChar c2 = some v2)
    (h3 : decChar c3 = some v3) (hne2 : c2 ≠ '=') (hne3 : c3 ≠ '=') :
    b64decode (c0 :: c1 :: c2 :: c3 :: rest) =
      (b64decode rest).map
        (fun bs => (v0 * 4 + v1 / 16) :: (v1 % 16 * 16 + v2 / 4) :: (v2 % 4 * 64 + v3) :: bs) := by
  simp only [b64decode, h0, h1, h2, h3, if_neg hne2, if_neg hne3]
  cases b64decode rest <;> rfl

theorem b64_roundtrip : ∀ {bs : List Nat}, (∀ b ∈ bs, b < 256) →
    b64decode (b64encode bs) = some bs := by
  intro bs
  induction bs using b64encode.induct with
  | case1 => intro _; rfl
  | case2 b0 =>
    intro hb
    have h0 : b0 < 256 := hb b0 (by simp)
    simp only [b64encode]
    rw [b64decode_pad2 (decChar_encChar (by omega)) (decChar_encChar (by omega)) (by omega)]
    have e0 : b0 / 4 * 4 + b0 % 4 * 16 / 16 = b0 := by omega
    rw [e0]
  | case3 b0 b1 =>
    intro hb
    have h0 : b0 < 256 := hb b0 (by simp)
    have h1 : b1 < 256 := hb b1 (by simp)
    simp only [b64encode]
    rw [b64decode_pad1 (decChar_encChar (by omega)) (decChar_encChar (by omega))
      (decChar_encChar (by omega)) (encChar_ne _).2.2 (by omega)]
    have e0 : b0 / 4 * 4 + (b0 % 4 * 16 + b1 / 16) / 16 = b0 := by omega
    have e1 : (b0 % 4 * 16 + b1 / 16) % 16 * 16 + b1 % 16 * 4 / 4 = b1 := by omega
    rw [e0, e1]
  | case4 b0 b1 b2 rest ih =>
    intro hb
    have h0 : b0 < 256 := hb b0 (by simp)
    have h1 : b1 < 256 := hb b1 (by simp)
    have h2 : b2 < 256 := hb b2 (by simp)
    have hrest : ∀ b ∈ rest, b < 256 := fun b hbm => hb b (by simp [hbm])
    simp only [b64encode]
    rw [b64decode_quad (decChar_encChar (by omega)) (decChar_encChar (by omega))
      (decChar_encChar (by omega)) (decChar_encChar (by omega))
      (encChar_ne _).2.2 (encChar_ne _).2.2, ih hrest]
    show some _ = _
    have e0 : b0 / 4 * 4 + (b0 % 4 * 16 + b1 / 16) / 16 = b0 := by omega
    have e1 : (b0 % 4 * 16 + b1 / 16) % 16 * 16 + (b1 % 16 * 4 + b2 / 64) / 4 = b1 := by omega
    have e2 : (b1 % 16 * 4 + b2 / 64) % 4 * 64 + b2 % 64 = b2 := by omega
    rw [e0, e1, e2]

/-! ## Helper lemmas: UTF-8 -/

theorem char_toNat_valid (c : Char) :
    c.toNat < 1114112 ∧ (c.toNat < 55296 ∨ 57343 < c.toNat) := by
  have h : c.val.toNat < 55296 ∨ 57343 < c.val.toNat ∧ c.val.toNat < 1114112 := c.valid
  have h2 : c.toNat = c.val.toNat := rfl
  omega

theorem utf8Char_bytes_lt {c : Char} : ∀ b ∈ utf8Char c, b < 256 := by
  intro b hb
  have hv := char_toNat_valid c
  simp only [utf8Char] at hb
  split at hb <;> [skip; split at hb] <;> [skip; skip; split at hb] <;>
    simp only [List.mem_cons, List.not_mem_nil, or_false] at hb <;>
    rcases hb with rfl | h <;> first
    | omega
    | (rcases h with rfl | h <;> first
        | omega
        | (rcases h with rfl | h <;> first
            | omega
            | (rcases h with rfl | h; omega)))

theorem utf8_bytes_lt {s : List Char} : ∀ b ∈ utf8 s, b < 256 := by
  induction s with
  | nil => intro b hb; simp [utf8] at hb
  | cons c cs ih =>
    intro b hb
    simp only [utf8, List.foldr_cons, List.mem_append] at hb
    rcases hb with hb | hb
    · exact utf8Char_bytes_lt b hb
    · exact ih b hb

theorem utf8Char_length_pos (c : Char) : 1 ≤ (utf8Char c).length := by
  simp only [utf8Char]
  split <;> [simp; split] <;> [simp; split] <;> simp

theorem utf8DecodeAux_utf8Char (f : Nat) (c : Char) (t : List Nat)
    (ht : ((utf8Char c).length + t.length) ≤ f + 1) :
    utf8DecodeAux (f + 1) (utf8Char c ++ t) = c :: utf8DecodeAux f t := by
  have hv := char_toNat_valid c
  by_cases h1 : c.toNat < 128
  · have he : utf8Char c = [c.toNat] := by simp [utf8Char, h1]
    rw [he]
    simp only [List.cons_append, List.nil_append]
    simp only [utf8DecodeAux]
    rw [if_pos h1, Char.ofNat_toNat]
  · by_cases h2 : c.toNat < 2048
    · have he : utf8Char c = [192 + c.toNat / 64, 128 + c.toNat % 64] := by
        simp [utf8Char, h1, h2]
      rw [he]
      simp only [List.cons_append, List.nil_append]
      simp only [utf8DecodeAux]
      rw [if_neg (by omega), if_neg (by omega), if_pos (by omega)]
      rw [if_neg (by simp)]
      simp only [List.getD_cons_zero, List.drop_succ_cons, List.drop_zero, decode2]
      rw [if_pos (by omega)]
      have e : (192 + c.toNat / 64 - 192) * 64 + (128 + c.toNat % 64 - 128) = c.toNat := by
        omega
      rw [e, Char.ofNat_toNat]
    · by_cases h3 : c.toNat < 65536
      · have he : utf8Char c =
            [224 + c.toNat / 4096, 128 + c.toNat / 64 % 64, 128 + c.toNat % 64] := by
          simp [utf8Char, h1, h2, h3]
        rw [he]
        simp only [List.cons_append, List.nil_append]
        simp only [utf8DecodeAux]
        rw [if_neg (by omega), if_neg (by omega), if_neg (by omega), if_pos (by omega)]
        rw [if_neg (by simp)]
        simp only [List.getD_cons_zero, List.getD_cons_succ, List.drop_succ_cons,
          List.drop_zero, decode3]
        rw [if_pos (by omega)]
        have e : (224 + c.toNat / 4096 - 224) * 4096 + (128 + c.toNat / 64 % 64 - 128) * 64 +
            (128 + c.toNat % 64 - 128) = c.toNat := by omega
        rw [e, Char.ofNat_toNat]
      · have he : utf8Char c =
            [240 + c.toNat / 262144, 128 + c.toNat / 4096 % 64, 128 + c.toNat / 64 % 64,
             128 + c.toNat % 64] := by
          simp [utf8Char, h1, h2, h3]
        rw [he]
        simp only [List.cons_append, List.nil_append]
        simp only [utf8DecodeAux]
        rw [if_neg (by omega), if_neg (by omega), if_neg (by omega), if_neg (by omega)]
        rw [if_neg (by simp)]
        simp only [List.getD_cons_zero, List.getD_cons_succ, List.drop_succ_cons,
          List.drop_zero, decode4]
        rw [if_pos (by omega)]
        have e : (240 + c.toNat / 262144 - 240) * 262144 +
            (128 + c.toNat / 4096 % 64 - 128) * 4096 + (128 + c.toNat / 64 % 64 - 128) * 64 +
            (128 + c.toNat % 64 - 128) = c.toNat := by omega
        rw [e, Char.ofNat_toNat]

theorem utf8DecodeAux_utf8 : ∀ (f : Nat) (s : List Char), (utf8 s).length ≤ f →
    utf8DecodeAux f (utf8 s) = s := by
  intro f
  induction f with
  | zero =>
    intro s hs
    match s, hs with
    | [], _ => rfl
    | c :: s2, hs =>
      exfalso
      have h1 := utf8Char_length_pos c
      simp only [utf8, List.foldr_cons, List.length_append, Nat.le_zero] at hs
      omega
  | succ f ih =>
    intro s hs
    match s with
    | [] => rfl
    | c :: s2 =>
      have hb : utf8 (c :: s2) = utf8Char c ++ utf8 s2 := rfl
      rw [hb] at hs ⊢
      simp only [List.length_append] at hs
      rw [utf8DecodeAux_utf8Char f c (utf8 s2) hs]
      congr 1
      exact ih s2 (by have := utf8Char_length_pos c; omega)

theorem utf8Decode_utf8 (s : List Char) : utf8Decode (utf8 s) = s :=
  utf8DecodeAux_utf8 _ s le_rfl

/-! ## Helper lemmas: file lines -/

theorem linesAux_append {l : List Char} (hl : '\n' ∉ l) : ∀ (acc rest : List Char),
    linesAux acc (l ++ '\n' :: rest) = (acc.reverse ++ l) :: linesAux [] rest := by
  induction l with
  | nil =>
    intro acc rest
    simp [linesAux]
  | cons c l2 ih =>
    intro acc rest
    have hc : c ≠ '\n' := fun h => hl (by simp [h])
    have hl2 : '\n' ∉ l2 := fun h => hl (by simp [h])
    simp only [List.cons_append, linesAux, if_neg hc, List.append_eq]
    rw [ih hl2]
    simp

theorem chopCR_eq {l : List Char} (h : ∀ c ∈ l, c ≠ '\r') : chopCR l = l := by
  simp only [chopCR]
  rw [if_neg]
  intro hc
  exact h '\r' (List.mem_of_mem_getLast? hc) rfl

theorem linesAux_fileContent {lines : List (List Char)}
    (h : ∀ l ∈ lines, ∀ c ∈ l, c ≠ '\n') :
    linesAux [] (fileContent lines) = lines := by
  induction lines with
  | nil => rfl
  | cons l ls ih =>
    have hl : '\n' ∉ l := fun hm => h l (by simp) '\n' hm rfl
    show linesAux [] (l ++ '\n' :: fileContent ls) = l :: ls
    rw [linesAux_append hl]
    simp only [List.reverse_nil, List.nil_append, List.cons.injEq, true_and]
    exact ih (fun p hp c hc => h p (by simp [hp]) c hc)

theorem rustLines_fileContent {lines : List (List Char)}
    (h : ∀ l ∈ lines, ∀ c ∈ l, c ≠ '\n' ∧ c ≠ '\r') :
    rustLines (fileContent lines) = lines := by
  simp only [rustLines]
  rw [linesAux_fileContent (fun l hl c hc => (h l hl c hc).1)]
  induction lines with
  | nil => rfl
  | cons l ls ih =>
    simp only [List.map_cons, chopCR_eq (fun c hc => (h l (by simp) c hc).2),
      List.cons.injEq, true_and]
    exact ih (fun p hp c hc => h p (by simp [hp]) c hc)

theorem b64encode_line_chars {bs : List Nat} :
    ∀ c ∈ b64encode bs, c ≠ '\n' ∧ c ≠ '\r' := fun _ hc => b64encode_ne_nl hc

/-! ## Helper lemmas: the worker -/

theorem workerLoop_eq (C : Cipher) (kb : List Nat) : ∀ msgs : List QMsg,
    workerLoop C kb msgs = (msgs.takeWhile isEntryQ).filterMap (entrySuccess C kb) := by
  intro msgs
  induction msgs with
  | nil => rfl
  | cons q rest ih =>
    cases q with
    | entry text env =>
      cases henc : env.encOk <;> cases hwr : env.wrOk <;>
        simp [workerLoop, List.takeWhile, isEntryQ, List.filterMap, entrySuccess, henc, hwr, ih]
    | shutdown => simp [workerLoop, List.takeWhile, isEntryQ]

theorem workerLoop_map (C : Cipher) (kb : List Nat) :
    ∀ msgs : List (List Char × List Nat),
    workerLoop C kb (msgs.map (fun p => QMsg.entry p.1 ⟨p.2, true, true⟩)) =
      msgs.map (fun p => encryptEntry C kb p.2 p.1) := by
  intro msgs
  induction msgs with
  | nil => rfl
  | cons p rest ih => simp [workerLoop, ih]

/-! ## Helper lemmas: the decrypt path -/

theorem decryptLine_encryptEntry {C : Cipher} (hC : CipherOk C) (kb : List Nat)
    {nonce : List Nat} (hn12 : nonce.length = 12) (hnb : ∀ b ∈ nonce, b < 256)
    (text : List Char) :
    decryptLine C kb (encryptEntry C kb nonce text) = Except.ok (utf8 text) := by
  have hbytes : ∀ b ∈ nonce ++ C.enc kb nonce (utf8 text), b < 256 := by
    intro b hb
    rcases List.mem_append.mp hb with hb | hb
    · exact hnb b hb
    · exact hC.encBytes kb nonce (utf8 text) utf8_bytes_lt b hb
  have ht : (nonce ++ C.enc kb nonce (utf8 text)).take 12 = nonce := by
    rw [← hn12]
    exact List.take_left nonce _
  have hd : (nonce ++ C.enc kb nonce (utf8 text)).drop 12 = C.enc kb nonce (utf8 text) := by
    rw [← hn12]
    exact List.drop_left nonce _
  simp only [decryptLine, decodeLine, encryptEntry, b64_roundtrip hbytes]
  rw [if_neg (by simp [List.length_append, hn12])]
  simp only [ht, hd, hC.roundtrip]

theorem decryptLoop_cons_ok {C : Cipher} {kb : List Nat} {l : List Char}
    {ls : List (List Char)} {acc : List Char} {pt : List Nat}
    (hpt : decryptLine C kb l = Except.ok pt) :
    decryptLoop C kb (l :: ls) acc = decryptLoop C kb ls (acc ++ utf8Decode pt ++ ['\n']) := by
  simp [decryptLoop, hpt]

theorem decryptLoop_cons_err {C : Cipher} {kb : List Nat} {l : List Char}
    {ls : List (List Char)} {acc : List Char} {e : Error}
    (he : decryptLine C kb l = Except.error e) :
    decryptLoop C kb (l :: ls) acc = Except.error e := by
  simp [decryptLoop, he]

theorem decryptLoop_first_error {C : Cipher} {kb : List Nat} :
    ∀ {pre : List (List Char)}, (∀ p ∈ pre, ∃ pt, decryptLine C kb p = Except.ok pt) →
    ∀ {l : List Char} {e : Error}, decryptLine C kb l = Except.error e →
    ∀ (rest : List (List Char)) (acc : List Char),
    decryptLoop C kb (pre ++ l :: rest) acc = Except.error e := by
  intro pre
  induction pre with
  | nil =>
    intro _ l e hbad rest acc
    simpa using decryptLoop_cons_err hbad
  | cons p pre2 ih =>
    intro hpre l e hbad rest acc
    obtain ⟨pt, hpt⟩ := hpre p (by simp)
    rw [List.cons_append, decryptLoop_cons_ok hpt]
    exact ih (fun q hq => hpre q (by simp [hq])) hbad rest _

theorem decryptLoop_all_ok {C : Cipher} {kb : List Nat} :
    ∀ (msgs : List (List Char × List Nat)) (acc : List Char),
    (∀ p ∈ msgs, decryptLine C kb (encryptEntry C kb p.2 p.1) = Except.ok (utf8 p.1)) →
    decryptLoop C kb (msgs.map (fun p => encryptEntry C kb p.2 p.1)) acc =
      Except.ok (acc ++ msgs.foldr (fun p a => p.1 ++ '\n' :: a) []) := by
  intro msgs
  induction msgs with
  | nil => intro acc _; simp [decryptLoop]
  | cons p rest ih =>
    intro acc h
    rw [List.map_cons, decryptLoop_cons_ok (h p (by simp)), utf8Decode_utf8,
      ih _ (fun q hq => h q (by simp [hq]))]
    simp

theorem decryptLine_ne_invalidKey (C : Cipher) (kb : List Nat) (l : List Char) :
    decryptLine C kb l ≠ Except.error Error.InvalidKey := by
  unfold decryptLine decodeLine
  rcases b64decode l with _ | data
  · simp
  · by_cases hlen : data.length < 12
    · simp [hlen]
    · simp only [hlen, if_false]
      rcases C.dec kb (data.take 12) (data.drop 12) with _ | pt <;> simp

theorem decryptLoop_ne_invalidKey (C : Cipher) (kb : List Nat) :
    ∀ (ls : List (List Char)) (acc : List Char),
    decryptLoop C kb ls acc ≠ Except.error Error.InvalidKey := by
  intro ls
  induction ls with
  | nil => intro acc; simp [decryptLoop]
  | cons l ls2 ih =>
    intro acc
    cases hl : decryptLine C kb l with
    | error e =>
      rw [decryptLoop_cons_err hl]
      intro hc
      injection hc with h
      subst h
      exact decryptLine_ne_invalidKey C kb l hl
    | ok pt =>
      rw [decryptLoop_cons_ok hl]
      exact ih _

/-! ## Helper lemmas: the toy cipher meets the contract -/

theorem toyTag_length (kb n m : List Nat) : (toyTag kb n m).length = 16 := by
  simp [toyTag]

theorem toyCipher_ok : CipherOk toyCipher := by
  constructor
  · intro kb n m
    show toyCipher.dec kb n (m ++ toyTag kb n m) = some m
    have hlen : (m ++ toyTag kb n m).length = m.length + 16 := by
      simp [List.length_append, toyTag_length]
    have hsub : m.length + 16 - 16 = m.length := by omega
    simp only [toyCipher, hlen, hsub]
    rw [if_pos (by omega)]
    rw [List.take_left, List.drop_left]
    rw [if_pos rfl]
  · intro kb n m
    simp [toyCipher, List.length_append, toyTag_length]
  · intro kb n m hm b hb
    simp only [toyCipher] at hb
    rcases List.mem_append.mp hb with hb | hb
    · exact hm b hb
    · simp only [toyTag, List.mem_append, List.mem_replicate, List.mem_cons,
        List.not_mem_nil, or_false] at hb
      rcases hb with ⟨_, rfl⟩ | rfl
      · omega
      · exact Nat.mod_lt _ (by omega)
  · intro kb n c hc
    simp only [toyCipher]
    rw [if_neg (by omega)]

/-! ## Helper lemmas: rejected and malformed lines -/

theorem decryptLine_dec_none {C : Cipher} {kb nonce ct : List Nat}
    (hn12 : nonce.length = 12) (hb : ∀ b ∈ nonce ++ ct, b < 256)
    (hrej : C.dec kb nonce ct = none) :
    decryptLine C kb (b64encode (nonce ++ ct)) = Except.error Error.DecryptionFailed := by
  have ht : (nonce ++ ct).take 12 = nonce := by
    rw [← hn12]
    exact List.take_left nonce _
  have hd : (nonce ++ ct).drop 12 = ct := by
    rw [← hn12]
    exact List.drop_left nonce _
  simp only [decryptLine, decodeLine, b64_roundtrip hb]
  rw [if_neg (by simp [List.length_append, hn12])]
  simp only [ht, hd, hrej]

theorem decryptLine_bad_b64 {C : Cipher} {kb : List Nat} {l : List Char}
    (h : b64decode l = none) :
    decryptLine C kb l = Except.error Error.InvalidData := by
  simp only [decryptLine, decodeLine, h]

theorem decryptLine_short {C : Cipher} {kb : List Nat} {l : List Char} {bs : List Nat}
    (h : b64decode l = some bs) (hlen : bs.length < 12) :
    decryptLine C kb l = Except.error Error.InvalidData := by
  simp only [decryptLine, decodeLine, h, if_pos hlen]

theorem flipBit_bytes_lt {bs : List Nat} {i j : Nat} (hb : ∀ b ∈ bs, b < 256) (hj : j < 8) :
    ∀ b ∈ flipBit bs i j, b < 256 := by
  intro b hbm
  rcases List.mem_or_eq_of_mem_set hbm with hbm | rfl
  · exact hb b hbm
  · have hold : bs.getD i 0 < 256 := by
      by_cases hi : i < bs.length
      · rw [List.getD_eq_getElem bs 0 hi]
        exact hb _ (List.getElem_mem hi)
      · rw [List.getD_eq_default bs 0 (by omega)]
        omega
    have h2 : (2 : Nat) ^ j < 2 ^ 8 := Nat.pow_lt_pow_right (by omega) hj
    have h8 : (2 : Nat) ^ 8 = 256 := by norm_num
    have hx : bs.getD i 0 < 2 ^ 8 := by omega
    have hxor := Nat.xor_lt_two_pow hx h2
    omega

theorem flipBit_length (bs : List Nat) (i j : Nat) : (flipBit bs i j).length = bs.length := by
  simp [flipBit]

/-! ## Helper lemmas: worker stream with a sentinel -/

theorem workerLoop_entries_append (C : Cipher) (kb : List Nat) :
    ∀ (q : List QMsg), (∀ m ∈ q, isEntryQ m = true) →
    ∀ extra, workerLoop C kb (q ++ QMsg.shutdown :: extra) = workerLoop C kb q := by
  intro q
  induction q with
  | nil => intro _ extra; rfl
  | cons m q2 ih =>
    intro hq extra
    cases m with
    | entry text env =>
      have hrec := ih (fun x hx => hq x (by simp [hx])) extra
      cases henc : env.encOk <;> cases hwr : env.wrOk <;>
        simp [List.cons_append, workerLoop, henc, hwr, hrec]
    | shutdown =>
      have := hq QMsg.shutdown (by simp)
      simp [isEntryQ] at this

/-! ## Claims -/

/-- C1: round trip.  For every cipher meeting the Aes256Gcm contract, every
passphrase, and every list of message texts logged through the pipeline (each
worker iteration drawing a fresh 12-byte nonce and with encryption and write
succeeding), decrypting the file the worker wrote with the same passphrase
reproduces every message exactly, except that the decrypt output appends a
trailing newline after each recovered message. -/
theorem c1_round_trip (C : Cipher) (hC : CipherOk C) (key : List Char)
    (msgs : List (List Char × List Nat))
    (hn : ∀ p ∈ msgs, p.2.length = 12 ∧ ∀ b ∈ p.2, b < 256) :
    decrypt C key (fileContent (workerLoop C (derive_key key)
        (msgs.map (fun p => QMsg.entry p.1 ⟨p.2, true, true⟩)))) =
      Except.ok (msgs.foldr (fun p a => p.1 ++ '\n' :: a) []) := by
  rw [workerLoop_map]
  simp only [decrypt, new_from_slice_derive]
  have hchars : ∀ l ∈ msgs.map (fun p => encryptEntry C (derive_key key) p.2 p.1),
      ∀ c ∈ l, c ≠ '\n' ∧ c ≠ '\r' := by
    intro l hl c hc
    simp only [List.mem_map] at hl
    obtain ⟨p, hp, rfl⟩ := hl
    exact b64encode_ne_nl hc
  rw [rustLines_fileContent hchars]
  simpa using decryptLoop_all_ok msgs []
    (fun p hp => decryptLine_encryptEntry hC _ (hn p hp).1 (hn p hp).2 p.1)

set_option maxRecDepth 1000000 in
/-- Witness for C1 at the toy cipher: one message under one key. -/
theorem c1_round_trip_witness :
    decrypt toyCipher ['k'] (fileContent (workerLoop toyCipher (derive_key ['k'])
        ([(['h', 'i'], [1, 2, 3, 4, 5, 6, 7, 8, 9, 10, 11, 12])].map
          (fun p => QMsg.entry p.1 ⟨p.2, true, true⟩)))) =
      Except.ok ['h', 'i', '\n'] :=
  c1_round_trip toyCipher toyCipher_ok ['k']
    [(['h', 'i'], [1, 2, 3, 4, 5, 6, 7, 8, 9, 10, 11, 12])] (by decide)

/-- C2: key sensitivity.  For every cipher meeting the Aes256Gcm contract and
every file of lines written under passphrase k, if the key derived from a
second passphrase differs and (the overwhelming-probability event for a real
AEAD) authentication rejects each written line under that second key, then
decrypt with the second passphrase fails with DecryptionFailed. -/
theorem c2_key_sensitivity (C : Cipher) (hC : CipherOk C) (k k2 : List Char)
    (msgs : List (List Char × List Nat)) (hne : msgs ≠ [])
    (hn : ∀ p ∈ msgs, p.2.length = 12 ∧ ∀ b ∈ p.2, b < 256)
    (hkey : derive_key k2 ≠ derive_key k)
    (hrej : ∀ p ∈ msgs,
      C.dec (derive_key k2) p.2 (C.enc (derive_key k) p.2 (utf8 p.1)) = none) :
    decrypt C k2 (fileContent (msgs.map (fun p => encryptEntry C (derive_key k) p.2 p.1))) =
      Except.error Error.DecryptionFailed := by
  simp only [decrypt, new_from_slice_derive]
  have hchars : ∀ l ∈ msgs.map (fun p => encryptEntry C (derive_key k) p.2 p.1),
      ∀ c ∈ l, c ≠ '\n' ∧ c ≠ '\r' := by
    intro l hl c hc
    simp only [List.mem_map] at hl
    obtain ⟨p, hp, rfl⟩ := hl
    exact b64encode_ne_nl hc
  rw [rustLines_fileContent hchars]
  cases msgs with
  | nil => exact absurd rfl hne
  | cons p rest =>
    have hpm : p ∈ p :: rest := List.mem_cons_self p rest
    have hb : ∀ b ∈ p.2 ++ C.enc (derive_key k) p.2 (utf8 p.1), b < 256 := by
      intro b hbm
      rcases List.mem_append.mp hbm with hbm | hbm
      · exact (hn p hpm).2 b hbm
      · exact hC.encBytes _ _ _ utf8_bytes_lt b hbm
    rw [List.map_cons]
    exact decryptLoop_cons_err
      (decryptLine_dec_none (hn p hpm).1 hb (hrej p hpm))

set_option maxRecDepth 1000000 in
/-- Witness for C2 at the toy cipher: a line written under one passphrase fails
under another whose derived key differs. -/
theorem c2_key_sensitivity_witness :
    decrypt toyCipher ['w'] (fileContent
        ([(['h', 'i'], [1, 2, 3, 4, 5, 6, 7, 8, 9, 10, 11, 12])].map
          (fun p => encryptEntry toyCipher (derive_key ['k']) p.2 p.1))) =
      Except.error Error.DecryptionFailed :=
  c2_key_sensitivity toyCipher toyCipher_ok ['k'] ['w']
    [(['h', 'i'], [1, 2, 3, 4, 5, 6, 7, 8, 9, 10, 11, 12])] (by decide) (by decide)
    (by decide) (by decide)

/-- C3 counterexample: with two live handles (one original, one clone),
dropping a single handle already sends the Shutdown sentinel to the queue,
although another live clone remains. -/
theorem c3_counterexample :
    (cloneLogger ⟨1, []⟩).handles = 2 ∧
    (dropLogger (cloneLogger ⟨1, []⟩)).handles = 1 ∧
    (dropLogger (cloneLogger ⟨1, []⟩)).queue = [QMsg.shutdown] :=
  ⟨rfl, rfl, rfl⟩

/-- C3 amended: dropping ANY SecureLogger handle sends a Shutdown sentinel to
the queue, regardless of how many other clones remain live; the worker then
drains only the entries queued ahead of that sentinel and exits, ignoring
every message queued after it. -/
theorem c3_amended_drop_always_shuts_down (s : HandleState) (C : Cipher) (kb : List Nat)
    (extra : List QMsg) (hq : ∀ q ∈ s.queue, isEntryQ q = true) :
    (dropLogger s).queue = s.queue ++ [QMsg.shutdown] ∧
    (dropLogger s).handles = s.handles - 1 ∧
    workerLoop C kb ((dropLogger s).queue ++ extra) = workerLoop C kb s.queue := by
  refine ⟨rfl, rfl, ?_⟩
  show workerLoop C kb ((s.queue ++ [QMsg.shutdown]) ++ extra) = workerLoop C kb s.queue
  rw [List.append_assoc, List.singleton_append]
  exact workerLoop_entries_append C kb s.queue hq extra

/-- Witness for the amended C3: a state with two live handles and one queued
entry; dropping appends the sentinel and the worker ignores a later entry. -/
theorem c3_amended_witness :
    (dropLogger ⟨2, [QMsg.entry ['a'] ⟨[0], true, true⟩]⟩).queue =
      [QMsg.entry ['a'] ⟨[0], true, true⟩] ++ [QMsg.shutdown] ∧
    (dropLogger ⟨2, [QMsg.entry ['a'] ⟨[0], true, true⟩]⟩).handles = 1 ∧
    workerLoop toyCipher [] ((dropLogger ⟨2, [QMsg.entry ['a'] ⟨[0], true, true⟩]⟩).queue ++
        [QMsg.entry ['b'] ⟨[1], true, true⟩]) =
      workerLoop toyCipher [] [QMsg.entry ['a'] ⟨[0], true, true⟩] :=
  c3_amended_drop_always_shuts_down ⟨2, [QMsg.entry ['a'] ⟨[0], true, true⟩]⟩ toyCipher []
    [QMsg.entry ['b'] ⟨[1], true, true⟩] (by decide)

set_option maxRecDepth 1000000 in
/-- C4 counterexample: a line whose base64 content decodes to exactly 12 bytes
(a nonce with empty ciphertext) is NOT rejected with InvalidData; it passes the
length check, reaches AEAD decryption, and fails there with DecryptionFailed. -/
theorem c4_counterexample :
    decrypt toyCipher ['k'] (fileContent [b64encode (List.replicate 12 0)]) =
      Except.error Error.DecryptionFailed ∧
    decrypt toyCipher ['k'] (fileContent [b64encode (List.replicate 12 0)]) ≠
      Except.error Error.InvalidData := by
  have h : decrypt toyCipher ['k'] (fileContent [b64encode (List.replicate 12 0)]) =
      Except.error Error.DecryptionFailed := by decide
  exact ⟨h, by rw [h]; decide⟩

/-- C4 amended: a line whose decoded content is FEWER than 12 bytes is
rejected with InvalidData before any AEAD decryption; a line decoding to
exactly 12 bytes (empty ciphertext) passes the length check and reaches AEAD
decryption, which rejects the empty ciphertext (shorter than the 16-byte tag)
with DecryptionFailed; and a wire line written by the worker always carries a
non-empty ciphertext after the nonce. -/
theorem c4_amended_wire_length (C : Cipher) (hC : CipherOk C) (kb : List Nat) :
    (∀ l bs, b64decode l = some bs → bs.length < 12 →
      decryptLine C kb l = Except.error Error.InvalidData) ∧
    (∀ l bs, b64decode l = some bs → bs.length = 12 →
      decryptLine C kb l = Except.error Error.DecryptionFailed) ∧
    (∀ nonce text, (C.enc kb nonce (utf8 text)).length ≠ 0) := by
  refine ⟨?_, ?_, ?_⟩
  · intro l bs h hlen
    exact decryptLine_short h hlen
  · intro l bs h hlen
    have hdrop : bs.drop 12 = [] := List.drop_eq_nil_of_le (by omega)
    simp only [decryptLine, decodeLine, h]
    rw [if_neg (by omega)]
    simp only [hdrop, hC.shortRejects kb (bs.take 12) [] (by simp)]
  · intro nonce text
    rw [hC.tagLen]
    omega

/-- Witness for the amended C4: a 4-byte line decoding to one byte gives
InvalidData; a line decoding to exactly the 12 zero bytes gives
DecryptionFailed; a concrete worker ciphertext is non-empty. -/
theorem c4_amended_witness :
    decryptLine toyCipher [] ['A', 'A', '=', '='] = Except.error Error.InvalidData ∧
    decryptLine toyCipher [] (b64encode (List.replicate 12 0)) =
      Except.error Error.DecryptionFailed ∧
    (toyCipher.enc [] [] (utf8 ['a'])).length ≠ 0 :=
  ⟨(c4_amended_wire_length toyCipher toyCipher_ok []).1 _ [0] (by decide) (by decide),
   (c4_amended_wire_length toyCipher toyCipher_ok []).2.1 _ (List.replicate 12 0)
     (by decide) (by decide),
   (c4_amended_wire_length toyCipher toyCipher_ok []).2.2 [] ['a']⟩

/-- C5: decrypt classifies bad lines by cause.  With all lines before the
offending one decrypting cleanly: a line that is not valid base64 fails the
whole decrypt with InvalidData; a line decoding to fewer than 12 bytes fails
it with InvalidData; a line whose ciphertext bytes were bit-flipped after
encryption — which for a real AEAD is rejected with overwhelming probability,
taken here as the rejection hypothesis — fails it with DecryptionFailed. -/
theorem c5_error_classification (C : Cipher) (hC : CipherOk C) (key : List Char)
    (pre : List (List Char))
    (hpre : ∀ p ∈ pre, ∃ pt, decryptLine C (derive_key key) p = Except.ok pt) :
    (∀ content l rest, rustLines content = pre ++ l :: rest → b64decode l = none →
      decrypt C key content = Except.error Error.InvalidData) ∧
    (∀ content l rest bs, rustLines content = pre ++ l :: rest → b64decode l = some bs →
      bs.length < 12 → decrypt C key content = Except.error Error.InvalidData) ∧
    (∀ content rest nonce text i j, nonce.length = 12 → (∀ b ∈ nonce, b < 256) → j < 8 →
      rustLines content = pre ++
        b64encode (nonce ++ flipBit (C.enc (derive_key key) nonce (utf8 text)) i j) :: rest →
      C.dec (derive_key key) nonce
        (flipBit (C.enc (derive_key key) nonce (utf8 text)) i j) = none →
      decrypt C key content = Except.error Error.DecryptionFailed) := by
  refine ⟨?_, ?_, ?_⟩
  · intro content l rest hsplit hl
    simp only [decrypt, new_from_slice_derive, hsplit]
    exact decryptLoop_first_error hpre (decryptLine_bad_b64 hl) rest []
  · intro content l rest bs hsplit hl hlen
    simp only [decrypt, new_from_slice_derive, hsplit]
    exact decryptLoop_first_error hpre (decryptLine_short hl hlen) rest []
  · intro content rest nonce text i j hn12 hnb hj hsplit hrej
    simp only [decrypt, new_from_slice_derive, hsplit]
    have hb : ∀ b ∈ nonce ++ flipBit (C.enc (derive_key key) nonce (utf8 text)) i j,
        b < 256 := by
      intro b hbm
      rcases List.mem_append.mp hbm with hbm | hbm
      · exact hnb b hbm
      · exact flipBit_bytes_lt (hC.encBytes _ _ _ utf8_bytes_lt) hj b hbm
    exact decryptLoop_first_error hpre (decryptLine_dec_none hn12 hb hrej) rest []

set_option maxRecDepth 1000000 in
/-- Witness for C5 at the toy cipher: a non-base64 line, a short line, and a
bit-flipped line, each as the sole line of a file. -/
theorem c5_error_classification_witness :
    decrypt toyCipher ['k'] (fileContent [['!', '!', '!', '!']]) =
      Except.error Error.InvalidData ∧
    decrypt toyCipher ['k'] (fileContent [['A', 'A', '=', '=']]) =
      Except.error Error.InvalidData ∧
    decrypt toyCipher ['k'] (fileContent [b64encode ([1, 2, 3, 4, 5, 6, 7, 8, 9, 10, 11, 12] ++
        flipBit (toyCipher.enc (derive_key ['k']) [1, 2, 3, 4, 5, 6, 7, 8, 9, 10, 11, 12]
          (utf8 ['h', 'i'])) 0 0)]) =
      Except.error Error.DecryptionFailed := by
  have h := c5_error_classification toyCipher toyCipher_ok ['k'] [] (by simp)
  refine ⟨h.1 _ ['!', '!', '!', '!'] [] (by decide) (by decide),
    h.2.1 _ ['A', 'A', '=', '='] [] [0] (by decide) (by decide) (by decide),
    h.2.2 _ [] [1, 2, 3, 4, 5, 6, 7, 8, 9, 10, 11, 12] ['h', 'i'] 0 0 (by decide) (by decide)
      (by decide) (by decide) (by decide)⟩

/-- C6: decrypt is all or nothing.  If the lines of the file split as a good
prefix, a first failing line, and anything after, the whole decrypt returns
exactly the error of that first failing line, and no plaintext recovered from
the earlier valid lines is returned. -/
theorem c6_all_or_nothing (C : Cipher) (key content : List Char)
    (pre rest : List (List Char)) (l : List Char) (e : Error)
    (hsplit : rustLines content = pre ++ l :: rest)
    (hpre : ∀ p ∈ pre, ∃ pt, decryptLine C (derive_key key) p = Except.ok pt)
    (hbad : decryptLine C (derive_key key) l = Except.error e) :
    decrypt C key content = Except.error e := by
  simp only [decrypt, new_from_slice_derive, hsplit]
  exact decryptLoop_first_error hpre hbad rest []

set_option maxRecDepth 1000000 in
/-- Witness for C6 at the toy cipher: a file with one valid line followed by a
non-base64 line decrypts to the error of the bad line, not to partial output. -/
theorem c6_all_or_nothing_witness :
    decrypt toyCipher ['k'] (fileContent
        [encryptEntry toyCipher (derive_key ['k']) [1, 2, 3, 4, 5, 6, 7, 8, 9, 10, 11, 12]
          ['h', 'i'], ['!', '!', '!', '!']]) =
      Except.error Error.InvalidData :=
  c6_all_or_nothing toyCipher ['k'] _
    [encryptEntry toyCipher (derive_key ['k']) [1, 2, 3, 4, 5, 6, 7, 8, 9, 10, 11, 12]
      ['h', 'i']]
    [] ['!', '!', '!', '!'] Error.InvalidData (by decide)
    (by
      intro p hp
      rw [List.mem_singleton] at hp
      subst hp
      exact ⟨utf8 ['h', 'i'], by decide⟩)
    (by decide)

/-- C7: the worker never terminates because of a failing message.  The lines
the worker writes are exactly the successful encrypt-and-write results of the
entries that precede the first Shutdown sentinel: an entry whose encryption or
write fails contributes nothing but does not stop the loop, and the loop ends
only at a Shutdown sentinel or at the end of the received stream. -/
theorem c7_worker_never_dies (C : Cipher) (kb : List Nat) (msgs : List QMsg) :
    workerLoop C kb msgs = (msgs.takeWhile isEntryQ).filterMap (entrySuccess C kb) :=
  workerLoop_eq C kb msgs

/-- C8: key derivation is a total deterministic function producing exactly 32
bytes by a single SHA-256 pass over the UTF-8 passphrase bytes, so the cipher
construction from the derived key succeeds in both the encrypt constructor and
the decrypt path, and the InvalidKey branch is unreachable. -/
theorem c8_derive_key_total (key : List Char) :
    derive_key key = sha256 (utf8 key) ∧
    (derive_key key).length = 32 ∧
    new_from_slice (derive_key key) = Except.ok (derive_key key) ∧
    (∀ fs path, encryptCtor key fs path = Except.ok (derive_key key, encryptOpenFs fs path)) ∧
    (∀ C content, decrypt C key content ≠ Except.error Error.InvalidKey) := by
  refine ⟨rfl, derive_key_length key, new_from_slice_derive key, ?_, ?_⟩
  · intro fs path
    simp [encryptCtor, new_from_slice_derive]
  · intro C content
    simp only [decrypt, new_from_slice_derive]
    exact decryptLoop_ne_invalidKey C (derive_key key) (rustLines content) []

/-- C9: decrypting an empty file succeeds with empty output for every key: no
lines are processed and no error is raised. -/
theorem c9_empty_file (C : Cipher) (key : List Char) :
    decrypt C key [] = Except.ok [] := by
  simp only [decrypt, new_from_slice_derive]
  rfl

/-- C10: constructing a logger truncates the target file.  Even when a file
with arbitrary prior contents exists at the path, after SecureLogger::encrypt
succeeds the file at the path is empty — the prior contents are destroyed —
while every other path is untouched. -/
theorem c10_truncate_on_open (key path prior : List Char)
    (fs : List Char → Option (List Char)) (hprior : fs path = some prior) :
    encryptCtor key fs path = Except.ok (derive_key key, encryptOpenFs fs path) ∧
    encryptOpenFs fs path path = some [] ∧
    (∀ p, p ≠ path → encryptOpenFs fs path p = fs p) := by
  refine ⟨by simp [encryptCtor, new_from_slice_derive], by simp [encryptOpenFs], ?_⟩
  intro p hp
  simp [encryptOpenFs, hp]

/-- Witness for C10: a filesystem holding nonempty content at the log path;
construction empties that path and leaves another path alone. -/
theorem c10_truncate_on_open_witness :
    encryptCtor ['k'] (fun p => if p = ['l'] then some ['x'] else none) ['l'] =
      Except.ok (derive_key ['k'],
        encryptOpenFs (fun p => if p = ['l'] then some ['x'] else none) ['l']) ∧
    encryptOpenFs (fun p => if p = ['l'] then some ['x'] else none) ['l'] ['l'] = some [] ∧
    (∀ p, p ≠ ['l'] →
      encryptOpenFs (fun p => if p = ['l'] then some ['x'] else none) ['l'] p =
        (fun p => if p = ['l'] then some ['x'] else none) p) :=
  c10_truncate_on_open ['k'] ['l'] ['x'] (fun p => if p = ['l'] then some ['x'] else none) rfl
